import Mathlib

/-!
# Verification of the cxxstreams lazy stream-combinator library

Shallow embedding of the sources and the pipeline terminal operations of the
cxxstreams repository, together with proofs of the specified properties.

Embedded components:
* `CountingStreamable` — `src/include/cxxs/counting_streamable.hpp`
* `RefSupplier` — the iterator-bound supplier (`src/unnamed/part_001`);
  the iterator pair `(_current, _end)` is modelled by the list of elements
  remaining between the two iterators, and advancing `_current` drops the head.
* `Streamable` — a generic pull source: the streamable contract of the spec
  (a state, a `next` returning an optional element plus the successor state).
  The field `wf` is a finiteness measure (every stream built by the library's
  entry points over a finite container is finite, and the C++ terminal loops
  terminate only on finite streams); `wf_dec` says a successful pull strictly
  shrinks it.  The field `none_frame` is the exhaustion contract of the spec
  (§3/§4.1): a `next` returning the absent indicator leaves the state
  unchanged, which is exactly what both sources in the repository do.
* The terminal operations of `Stream` (`src/include/kstd/streams/stream.hpp`)
  — `skip`, `find_last`, `reduce`, `sum`, `min`, `max`, `count`, `collect`,
  `collect_sequence`, `collect_to_memory` — translated loop-for-loop, with the
  C++ mutation of `self` made explicit by returning the successor state.
-/

/-- `cxxs::CountingStreamable<T>` (counting_streamable.hpp): a value, a maximum
repeat count and an internal counter. -/
structure CountingStreamable (T : Type) where
  value : T
  max_count : Nat
  count : Nat
deriving DecidableEq

/-- `CountingStreamable::next`: absent once the counter reaches `max_count`,
otherwise increments the counter and yields a copy of the stored value.
The returned pair is (result, state of the streamable after the call). -/
def CountingStreamable.next {T : Type} (s : CountingStreamable T) :
    Option T × CountingStreamable T :=
  if s.count = s.max_count then (none, s)
  else (some s.value, { s with count := s.count + 1 })

/-- State of a counting streamable after `n` calls to `next` (results discarded). -/
def CountingStreamable.after {T : Type} (s : CountingStreamable T) : Nat → CountingStreamable T
  | 0 => s
  | n + 1 => (CountingStreamable.after s n).next.2

/-- `kstd::streams::RefSupplier<I>` (iterator-bound source): holds `_current`
and `_end`; modelled by the list of elements still between the two iterators. -/
structure RefSupplier (T : Type) where
  current : List T
deriving DecidableEq

/-- `RefSupplier::get_next`: absent when `_current == _end`, otherwise yields
`*(_current++)`, i.e. the head of the remaining elements. -/
def RefSupplier.get_next {T : Type} (s : RefSupplier T) : Option T × RefSupplier T :=
  match s.current with
  | [] => (none, s)
  | x :: xs => (some x, ⟨xs⟩)

/-- State of an iterator-bound supplier after `n` calls to `get_next`. -/
def RefSupplier.after {T : Type} (s : RefSupplier T) : Nat → RefSupplier T
  | 0 => s
  | n + 1 => (RefSupplier.after s n).get_next.2

/-- A generic pull source, the streamable contract of the spec (§3): a state
type, a `next` operation returning an optional element together with the
successor state (the C++ `next` mutates `*this`; the successor state makes
that mutation explicit).  `wf` is a finiteness measure with `wf_dec`: a pull
that yields an element strictly shrinks it.  `none_frame` is the exhaustion
contract of §3/§4.1 — a pull that reports exhaustion does not change the
state — which both repository sources satisfy literally (they return with no
mutation; see `CountingStreamable.next_none_frame` and
`RefSupplier.get_next_none_frame` below). -/
structure Streamable (T : Type) where
  σ : Type
  next : σ → Option T × σ
  wf : σ → Nat
  wf_dec : ∀ s x t, next s = (some x, t) → wf t < wf s
  none_frame : ∀ s t, next s = (none, t) → t = s

/-- `Stream::collect` (stream.hpp, lines 387-400): pulls until exhaustion,
appending every element to the result container in pull order.  Returns the
collected elements together with the state of the drained pipeline. -/
def Streamable.collect {T : Type} (S : Streamable T) (s : S.σ) : List T × S.σ :=
  match h : S.next s with
  | (none, t) => ([], t)
  | (some x, t) =>
    let r := S.collect t
    (x :: r.1, r.2)
termination_by S.wf s
decreasing_by exact S.wf_dec s x t h

/-- The elements of a streamable in pull order — the abstraction map used to
state properties of the terminal operations. -/
def Streamable.toList {T : Type} (S : Streamable T) (s : S.σ) : List T :=
  (S.collect s).1

/-- A state whose next pull reports exhaustion. -/
def Streamable.Exhausted {T : Type} (S : Streamable T) (s : S.σ) : Prop :=
  (S.next s).1 = none

/-- `Stream::count` (stream.hpp, lines 282-293): drains the pipeline fully,
counting the elements pulled. -/
def Streamable.count {T : Type} (S : Streamable T) (s : S.σ) : Nat × S.σ :=
  match h : S.next s with
  | (none, t) => (0, t)
  | (some x, t) =>
    let r := S.count t
    (r.1 + 1, r.2)
termination_by S.wf s
decreasing_by exact S.wf_dec s x t h

/-- The `while (next)` loop of `Stream::reduce` (stream.hpp, lines 208-211):
folds the remaining elements into the accumulator. -/
def Streamable.reduceLoop {T : Type} (S : Streamable T) (f : T → T → T) (acc : T)
    (s : S.σ) : T × S.σ :=
  match h : S.next s with
  | (none, t) => (acc, t)
  | (some x, t) => S.reduceLoop f (f acc x) t
termination_by S.wf s
decreasing_by exact S.wf_dec s x t h

/-- `Stream::reduce` (stream.hpp, lines 196-214): absent if the first pull is
absent; otherwise the first element seeds the accumulator and the remaining
elements are left-folded into it in pull order. -/
def Streamable.reduce {T : Type} (S : Streamable T) (f : T → T → T) (s : S.σ) :
    Option T × S.σ :=
  match S.next s with
  | (none, t) => (none, t)
  | (some x, t) =>
    let r := S.reduceLoop f x t
    (some r.1, r.2)

/-- `Stream::sum` (stream.hpp, lines 216-224): `reduce` with `operator+`. -/
def Streamable.sum {T : Type} [Add T] (S : Streamable T) (s : S.σ) : Option T × S.σ :=
  S.reduce (fun a b => a + b) s

/-- The `while (element)` loop of `Stream::min` (stream.hpp, lines 241-249):
`if (value < result) result = value`.  `lt` models the element type's
`operator<`. -/
def Streamable.minLoop {T : Type} (S : Streamable T) (lt : T → T → Bool) (result : T)
    (s : S.σ) : T × S.σ :=
  match h : S.next s with
  | (none, t) => (result, t)
  | (some x, t) => S.minLoop lt (if lt x result then x else result) t
termination_by S.wf s
decreasing_by exact S.wf_dec s x t h

/-- `Stream::min` (stream.hpp, lines 226-252). -/
def Streamable.min {T : Type} (S : Streamable T) (lt : T → T → Bool) (s : S.σ) :
    Option T × S.σ :=
  match S.next s with
  | (none, t) => (none, t)
  | (some x, t) =>
    let r := S.minLoop lt x t
    (some r.1, r.2)

/-- The `while (element)` loop of `Stream::max` (stream.hpp, lines 269-277):
`if (result < value) result = value`. -/
def Streamable.maxLoop {T : Type} (S : Streamable T) (lt : T → T → Bool) (result : T)
    (s : S.σ) : T × S.σ :=
  match h : S.next s with
  | (none, t) => (result, t)
  | (some x, t) => S.maxLoop lt (if lt result x then x else result) t
termination_by S.wf s
decreasing_by exact S.wf_dec s x t h

/-- `Stream::max` (stream.hpp, lines 254-280). -/
def Streamable.max {T : Type} (S : Streamable T) (lt : T → T → Bool) (s : S.σ) :
    Option T × S.σ :=
  match S.next s with
  | (none, t) => (none, t)
  | (some x, t) =>
    let r := S.maxLoop lt x t
    (some r.1, r.2)

/-- The `while (element)` loop of `Stream::find_last` (stream.hpp, lines
179-194): keeps the last element seen. -/
def Streamable.findLastLoop {T : Type} (S : Streamable T) (acc : T) (s : S.σ) :
    T × S.σ :=
  match h : S.next s with
  | (none, t) => (acc, t)
  | (some x, t) => S.findLastLoop x t
termination_by S.wf s
decreasing_by exact S.wf_dec s x t h

/-- `Stream::find_last` (stream.hpp, lines 179-194): drains fully and returns
the last element seen, absent if the pipeline was empty. -/
def Streamable.find_last {T : Type} (S : Streamable T) (s : S.σ) : Option T × S.σ :=
  match S.next s with
  | (none, t) => (none, t)
  | (some x, t) =>
    let r := S.findLastLoop x t
    (some r.1, r.2)

/-- `Stream::skip` (stream.hpp, lines 161-173): a `for` loop of at most `count`
iterations, each pulling one element and breaking as soon as a pull reports
exhaustion; the pipeline itself (here: its state) is returned so the remaining
elements can still be pulled. -/
def Streamable.skip {T : Type} (S : Streamable T) (s : S.σ) : Nat → S.σ
  | 0 => s
  | n + 1 =>
    match S.next s with
    | (none, t) => t
    | (some _, t) => S.skip t n

/-- The `while (element && index < EXTENT)` loop of `Stream::collect_sequence`
(stream.hpp, lines 418-432).  The first argument pair is the element already
pulled (`element`) together with the pipeline state after that pull; the
buffer writes `result[index++] = move(*element)` are recorded as
(index, value) pairs in write order. -/
def Streamable.collectSeqLoop {T : Type} (S : Streamable T) (extent : Nat) :
    Option T × S.σ → Nat → List (Nat × T) × S.σ
  | (none, s), _ => ([], s)
  | (some x, s), index =>
    if h : index < extent then
      let r := S.collectSeqLoop extent (S.next s) (index + 1)
      ((index, x) :: r.1, r.2)
    else ([], s)
termination_by es index => extent - index
decreasing_by omega

/-- `Stream::collect_sequence<EXTENT, SEQ>` (stream.hpp, lines 418-432): pulls
a first element, then copies elements into the fixed-size sequence at
positions `0, 1, ...` while an element is present and the position is below
`EXTENT` (the C++ signature requires `EXTENT > 0`).  Returns the recorded
writes and the final pipeline state. -/
def Streamable.collect_sequence {T : Type} (S : Streamable T) (extent : Nat)
    (s : S.σ) : List (Nat × T) × S.σ :=
  S.collectSeqLoop extent (S.next s) 0

/-- The `while (element && index < max_count)` loop of
`Stream::collect_to_memory` (stream.hpp, lines 434-444); identical to the
`collect_sequence` loop except that the write target is a raw buffer
(`*(elements + index) = move(*element)`). -/
def Streamable.collectMemLoop {T : Type} (S : Streamable T) (max_count : Nat) :
    Option T × S.σ → Nat → List (Nat × T) × S.σ
  | (none, s), _ => ([], s)
  | (some x, s), index =>
    if h : index < max_count then
      let r := S.collectMemLoop max_count (S.next s) (index + 1)
      ((index, x) :: r.1, r.2)
    else ([], s)
termination_by es index => max_count - index
decreasing_by omega

/-- `Stream::collect_to_memory(T* elements, size_t max_count)` (stream.hpp,
lines 434-444): like `collect_sequence` but into a caller-supplied raw buffer
with an unchecked capacity bound. -/
def Streamable.collect_to_memory {T : Type} (S : Streamable T) (s : S.σ)
    (max_count : Nat) : List (Nat × T) × S.σ :=
  S.collectMemLoop max_count (S.next s) 0

/-- The element already pulled from a pipeline followed by the elements still
to come — the elements a loop holding `(element, self)` has yet to process. -/
def Streamable.pulled {T : Type} (S : Streamable T) : Option T × S.σ → List T
  | (none, _) => []
  | (some x, t) => x :: S.toList t

/-- Modelled from the spec: the repository's `ChainingStream`
(`chaining_stream.hpp`, included by stream.hpp but not present under src/)
"owns two streamables; exhausts the first entirely, in order, before pulling
from the second" (§3).  Its state is the pair of the two owned streamables'
states; a pull first pulls the first streamable and, only when that reports
exhaustion, pulls the second. -/
def chainingStreamable {T : Type} (A B : Streamable T) : Streamable T where
  σ := A.σ × B.σ
  next := fun p =>
    match A.next p.1 with
    | (some x, a2) => (some x, (a2, p.2))
    | (none, a2) =>
      match B.next p.2 with
      | (some y, b2) => (some y, (a2, b2))
      | (none, b2) => (none, (a2, b2))
  wf := fun p => A.wf p.1 + B.wf p.2
  wf_dec := by
    intro p x t h
    simp only at h
    cases hA : A.next p.1 with
    | mk ea a2 =>
      rw [hA] at h
      cases ea with
      | some xa =>
        injection h with h1 h2
        rw [← h2]
        have := A.wf_dec p.1 xa a2 hA
        simp only
        omega
      | none =>
        have ha2 : a2 = p.1 := A.none_frame p.1 a2 hA
        cases hB : B.next p.2 with
        | mk eb b2 =>
          rw [hB] at h
          cases eb with
          | some yb =>
            injection h with h1 h2
            rw [← h2, ha2]
            have := B.wf_dec p.2 yb b2 hB
            simp only
            omega
          | none => simp at h
  none_frame := by
    intro p t h
    simp only at h
    cases hA : A.next p.1 with
    | mk ea a2 =>
      rw [hA] at h
      cases ea with
      | some xa => simp at h
      | none =>
        have ha2 : a2 = p.1 := A.none_frame p.1 a2 hA
        cases hB : B.next p.2 with
        | mk eb b2 =>
          rw [hB] at h
          cases eb with
          | some yb => simp at h
          | none =>
            have hb2 : b2 = p.2 := B.none_frame p.2 b2 hB
            injection h with h1 h2
            rw [← h2, ha2, hb2]

/-- `Stream::chain(other)` (stream.hpp, lines 69-73): constructs
`ChainingStream<IMPL, S2>(self, other)` — the pipeline's own elements first,
then `other`'s. -/
def Streamable.chain {T : Type} (self other : Streamable T) : Streamable T :=
  chainingStreamable self other

/-- `Stream::pre_chain(other)` (stream.hpp, lines 75-79): constructs
`ChainingStream<S2, IMPL>(other, self)` — `other`'s elements first, then the
pipeline's own. -/
def Streamable.pre_chain {T : Type} (self other : Streamable T) : Streamable T :=
  chainingStreamable other self

/-- Entry point `stream(container)` specialised to a list: the pipeline state
is the list of elements the underlying iterator has not yet passed; a pull
yields the head and advances. -/
def listStream (T : Type) : Streamable T where
  σ := List T
  next := fun l =>
    match l with
    | [] => (none, [])
    | x :: xs => (some x, xs)
  wf := List.length
  wf_dec := by
    intro s x t h
    cases s with
    | nil => simp at h
    | cons y ys =>
      injection h with h1 h2
      rw [h2]
      simp
  none_frame := by
    intro s t h
    cases s with
    | nil => injection h with h1 h2; rw [h2]
    | cons y ys => simp at h

theorem CountingStreamable.after_fresh {T : Type} (v : T) (k n : Nat) :
    (CountingStreamable.mk v k 0).after n = CountingStreamable.mk v k (min n k) := by
  induction n with
  | zero => simp [CountingStreamable.after]
  | succ n ih =>
    rw [CountingStreamable.after, ih, CountingStreamable.next]
    rcases Nat.lt_or_ge n k with h | h
    · have h1 : min n k = n := by omega
      have h2 : min (n + 1) k = n + 1 := by omega
      have h3 : n ≠ k := by omega
      simp [h1, h2, h3]
    · have h1 : min n k = k := by omega
      have h2 : min (n + 1) k = k := by omega
      simp [h1, h2]

/-- C1: for the counting source constructed with value `v` and count `k`, each
of the first `k` calls to `next` returns `some v`, and the `(k+1)`-th call
(the one made from the state reached after `k` calls) returns `none`. -/
theorem counting_first_k_present_then_absent {T : Type} (v : T) (k i : Nat) :
    (i < k → ((CountingStreamable.mk v k 0).after i).next.1 = some v) ∧
    ((CountingStreamable.mk v k 0).after k).next.1 = none := by
  constructor
  · intro hik
    rw [CountingStreamable.after_fresh, CountingStreamable.next]
    have : min i k ≠ k := by omega
    simp [this]
  · rw [CountingStreamable.after_fresh, CountingStreamable.next]
    simp

theorem counting_first_k_present_then_absent_witness :
    (4 < 10 ∧ ((CountingStreamable.mk (3 : Nat) 10 0).after 4).next.1 = some 3) ∧
    ((CountingStreamable.mk (3 : Nat) 10 0).after 10).next.1 = none :=
  ⟨⟨by decide, (counting_first_k_present_then_absent 3 10 4).1 (by decide)⟩,
    (counting_first_k_present_then_absent 3 10 4).2⟩

theorem CountingStreamable.next_none_frame {T : Type} (s : CountingStreamable T)
    (h : s.next.1 = none) : s.next = (none, s) := by
  rw [CountingStreamable.next] at h ⊢
  by_cases hc : s.count = s.max_count
  · simp [hc]
  · simp [hc] at h

theorem RefSupplier.get_next_none_frame {T : Type} (s : RefSupplier T)
    (h : s.get_next.1 = none) : s.get_next = (none, s) := by
  rw [RefSupplier.get_next] at h ⊢
  match hc : s.current with
  | [] => rfl
  | x :: xs => rw [hc] at h; simp at h

/-- C2: for both sources in the repository — the counting source and the
iterator-bound supplier — once `next` returns the absent indicator, every
subsequent call also returns the absent indicator and the state never changes
again (so no element can reappear). -/
theorem sources_absent_is_permanent {T : Type} :
    (∀ s : CountingStreamable T, s.next.1 = none →
      ∀ n, (s.after n).next.1 = none ∧ s.after n = s) ∧
    (∀ r : RefSupplier T, r.get_next.1 = none →
      ∀ n, (r.after n).get_next.1 = none ∧ r.after n = r) := by
  constructor
  · intro s h n
    induction n with
    | zero => exact ⟨h, rfl⟩
    | succ n ih =>
      rw [CountingStreamable.after, ih.2, CountingStreamable.next_none_frame s h]
      exact ⟨h, rfl⟩
  · intro r h n
    induction n with
    | zero => exact ⟨h, rfl⟩
    | succ n ih =>
      rw [RefSupplier.after, ih.2, RefSupplier.get_next_none_frame r h]
      exact ⟨h, rfl⟩

theorem sources_absent_is_permanent_witness :
    (((CountingStreamable.mk (7 : Nat) 0 0).after 3).next.1 = none ∧
      (CountingStreamable.mk (7 : Nat) 0 0).after 3 = CountingStreamable.mk 7 0 0) ∧
    (((RefSupplier.mk ([] : List Nat)).after 3).get_next.1 = none ∧
      (RefSupplier.mk ([] : List Nat)).after 3 = RefSupplier.mk []) :=
  ⟨(sources_absent_is_permanent (T := Nat)).1 (CountingStreamable.mk 7 0 0) (by decide) 3,
    (sources_absent_is_permanent (T := Nat)).2 (RefSupplier.mk []) (by decide) 3⟩

/-- C9: every call to the counting source's `next` leaves the stored value and
the maximum count unchanged (only the internal counter may change), and hence
over the whole call sequence from construction every present result is a copy
of the value supplied at construction. -/
theorem counting_next_frame {T : Type} (v : T) (k : Nat) :
    (∀ s : CountingStreamable T,
      s.next.2.value = s.value ∧ s.next.2.max_count = s.max_count) ∧
    (∀ n, ((CountingStreamable.mk v k 0).after n).value = v ∧
      ((CountingStreamable.mk v k 0).after n).max_count = k) ∧
    (∀ n, ((CountingStreamable.mk v k 0).after n).next.1 = none ∨
      ((CountingStreamable.mk v k 0).after n).next.1 = some v) := by
  refine ⟨?_, ?_, ?_⟩
  · intro s
    rw [CountingStreamable.next]
    by_cases hc : s.count = s.max_count <;> simp [hc]
  · intro n
    rw [CountingStreamable.after_fresh]
    exact ⟨rfl, rfl⟩
  · intro n
    rw [CountingStreamable.after_fresh, CountingStreamable.next]
    by_cases hc : min n k = k <;> simp [hc]

/-- Case analysis on a streamable state following the pull order: a property
holds everywhere if it holds at exhausted states and is preserved backwards
along successful pulls. -/
theorem Streamable.inductionOn {T : Type} (S : Streamable T) (P : S.σ → Prop)
    (hnone : ∀ s t, S.next s = (none, t) → P s)
    (hsome : ∀ s x t, S.next s = (some x, t) → P t → P s) (s : S.σ) : P s := by
  generalize hn : S.wf s = n
  induction n using Nat.strong_induction_on generalizing s with
  | _ n ih =>
    cases h : S.next s with
    | mk e t =>
      cases e with
      | none => exact hnone s t h
      | some x =>
        exact hsome s x t h (ih (S.wf t) (hn ▸ S.wf_dec s x t h) t rfl)

theorem Streamable.exhausted_next {T : Type} (S : Streamable T) (s : S.σ)
    (h : S.Exhausted s) : S.next s = (none, s) := by
  have hp : S.next s = ((S.next s).1, (S.next s).2) := rfl
  rw [Streamable.Exhausted] at h
  rw [hp, h]
  rw [S.none_frame s (S.next s).2 (by rw [hp, h])]

theorem Streamable.collect_none {T : Type} (S : Streamable T) (s t : S.σ)
    (h : S.next s = (none, t)) : S.collect s = ([], t) := by
  unfold Streamable.collect
  split
  · rename_i t2 heq
    rw [h] at heq
    injection heq with h1 h2
    rw [h2]
  · rename_i x t2 heq
    rw [h] at heq
    injection heq with h1 h2
    exact absurd h1 (by simp)

theorem Streamable.collect_some {T : Type} (S : Streamable T) (s t : S.σ) (x : T)
    (h : S.next s = (some x, t)) :
    S.collect s = (x :: (S.collect t).1, (S.collect t).2) := by
  conv_lhs => rw [Streamable.collect]
  split
  · rename_i t2 heq
    rw [h] at heq
    injection heq with h1 h2
    exact absurd h1 (by simp)
  · rename_i y t2 heq
    rw [h] at heq
    injection heq with h1 h2
    subst h2
    injection h1 with h1
    subst h1
    rfl

theorem Streamable.toList_none {T : Type} (S : Streamable T) (s t : S.σ)
    (h : S.next s = (none, t)) : S.toList s = [] := by
  rw [Streamable.toList, S.collect_none s t h]

theorem Streamable.toList_some {T : Type} (S : Streamable T) (s t : S.σ) (x : T)
    (h : S.next s = (some x, t)) : S.toList s = x :: S.toList t := by
  rw [Streamable.toList, Streamable.toList, S.collect_some s t x h]

theorem Streamable.toList_eq_nil_iff {T : Type} (S : Streamable T) (s : S.σ) :
    S.toList s = [] ↔ S.Exhausted s := by
  cases h : S.next s with
  | mk e t =>
    cases e with
    | none =>
      rw [S.toList_none s t h, Streamable.Exhausted, h]
      simp
    | some x =>
      rw [S.toList_some s t x h, Streamable.Exhausted, h]
      simp

/-- The pipeline state left behind by a full drain is exhausted. -/
theorem Streamable.collect_snd_exhausted {T : Type} (S : Streamable T) (s : S.σ) :
    S.Exhausted (S.collect s).2 := by
  induction s using S.inductionOn with
  | hnone s t h =>
    rw [S.collect_none s t h, Streamable.Exhausted]
    have ht : t = s := S.none_frame s t h
    rw [ht, h]
  | hsome s x t h ih =>
    rw [S.collect_some s t x h]
    exact ih

theorem listStream_toList {T : Type} (l : List T) : (listStream T).toList l = l := by
  induction l with
  | nil => exact (listStream T).toList_none [] [] rfl
  | cons x xs ih => rw [(listStream T).toList_some (x :: xs) xs x rfl, ih]

theorem Streamable.count_none {T : Type} (S : Streamable T) (s t : S.σ)
    (h : S.next s = (none, t)) : S.count s = (0, t) := by
  unfold Streamable.count
  split
  · rename_i t2 heq
    rw [h] at heq
    injection heq with h1 h2
    rw [h2]
  · rename_i x t2 heq
    rw [h] at heq
    injection heq with h1 h2
    exact absurd h1 (by simp)

theorem Streamable.count_some {T : Type} (S : Streamable T) (s t : S.σ) (x : T)
    (h : S.next s = (some x, t)) :
    S.count s = ((S.count t).1 + 1, (S.count t).2) := by
  conv_lhs => rw [Streamable.count]
  split
  · rename_i t2 heq
    rw [h] at heq
    injection heq with h1 h2
    exact absurd h1 (by simp)
  · rename_i y t2 heq
    rw [h] at heq
    injection heq with h1 h2
    subst h2
    injection h1 with h1
    subst h1
    rfl

theorem Streamable.reduceLoop_none {T : Type} (S : Streamable T) (f : T → T → T)
    (acc : T) (s t : S.σ) (h : S.next s = (none, t)) :
    S.reduceLoop f acc s = (acc, t) := by
  unfold Streamable.reduceLoop
  split
  · rename_i t2 heq
    rw [h] at heq
    injection heq with h1 h2
    rw [h2]
  · rename_i x t2 heq
    rw [h] at heq
    injection heq with h1 h2
    exact absurd h1 (by simp)

theorem Streamable.reduceLoop_some {T : Type} (S : Streamable T) (f : T → T → T)
    (acc x : T) (s t : S.σ) (h : S.next s = (some x, t)) :
    S.reduceLoop f acc s = S.reduceLoop f (f acc x) t := by
  conv_lhs => rw [Streamable.reduceLoop]
  split
  · rename_i t2 heq
    rw [h] at heq
    injection heq with h1 h2
    exact absurd h1 (by simp)
  · rename_i y t2 heq
    rw [h] at heq
    injection heq with h1 h2
    subst h2
    injection h1 with h1
    subst h1
    rfl

theorem Streamable.findLastLoop_none {T : Type} (S : Streamable T) (acc : T)
    (s t : S.σ) (h : S.next s = (none, t)) : S.findLastLoop acc s = (acc, t) := by
  unfold Streamable.findLastLoop
  split
  · rename_i t2 heq
    rw [h] at heq
    injection heq with h1 h2
    rw [h2]
  · rename_i x t2 heq
    rw [h] at heq
    injection heq with h1 h2
    exact absurd h1 (by simp)

theorem Streamable.findLastLoop_some {T : Type} (S : Streamable T) (acc x : T)
    (s t : S.σ) (h : S.next s = (some x, t)) :
    S.findLastLoop acc s = S.findLastLoop x t := by
  conv_lhs => rw [Streamable.findLastLoop]
  split
  · rename_i t2 heq
    rw [h] at heq
    injection heq with h1 h2
    exact absurd h1 (by simp)
  · rename_i y t2 heq
    rw [h] at heq
    injection heq with h1 h2
    subst h2
    injection h1 with h1
    subst h1
    rfl

theorem Streamable.minLoop_none {T : Type} (S : Streamable T) (lt : T → T → Bool)
    (acc : T) (s t : S.σ) (h : S.next s = (none, t)) :
    S.minLoop lt acc s = (acc, t) := by
  unfold Streamable.minLoop
  split
  · rename_i t2 heq
    rw [h] at heq
    injection heq with h1 h2
    rw [h2]
  · rename_i x t2 heq
    rw [h] at heq
    injection heq with h1 h2
    exact absurd h1 (by simp)

theorem Streamable.minLoop_some {T : Type} (S : Streamable T) (lt : T → T → Bool)
    (acc x : T) (s t : S.σ) (h : S.next s = (some x, t)) :
    S.minLoop lt acc s = S.minLoop lt (if lt x acc then x else acc) t := by
  conv_lhs => rw [Streamable.minLoop]
  split
  · rename_i t2 heq
    rw [h] at heq
    injection heq with h1 h2
    exact absurd h1 (by simp)
  · rename_i y t2 heq
    rw [h] at heq
    injection heq with h1 h2
    subst h2
    injection h1 with h1
    subst h1
    rfl

theorem Streamable.maxLoop_none {T : Type} (S : Streamable T) (lt : T → T → Bool)
    (acc : T) (s t : S.σ) (h : S.next s = (none, t)) :
    S.maxLoop lt acc s = (acc, t) := by
  unfold Streamable.maxLoop
  split
  · rename_i t2 heq
    rw [h] at heq
    injection heq with h1 h2
    rw [h2]
  · rename_i x t2 heq
    rw [h] at heq
    injection heq with h1 h2
    exact absurd h1 (by simp)

theorem Streamable.maxLoop_some {T : Type} (S : Streamable T) (lt : T → T → Bool)
    (acc x : T) (s t : S.σ) (h : S.next s = (some x, t)) :
    S.maxLoop lt acc s = S.maxLoop lt (if lt acc x then x else acc) t := by
  conv_lhs => rw [Streamable.maxLoop]
  split
  · rename_i t2 heq
    rw [h] at heq
    injection heq with h1 h2
    exact absurd h1 (by simp)
  · rename_i y t2 heq
    rw [h] at heq
    injection heq with h1 h2
    subst h2
    injection h1 with h1
    subst h1
    rfl

theorem Streamable.pulled_next {T : Type} (S : Streamable T) (s : S.σ) :
    S.pulled (S.next s) = S.toList s := by
  cases h : S.next s with
  | mk e t =>
    cases e with
    | none => rw [Streamable.pulled, S.toList_none s t h]
    | some x => rw [Streamable.pulled, S.toList_some s t x h]

theorem Streamable.count_spec {T : Type} (S : Streamable T) (s : S.σ) :
    S.count s = ((S.toList s).length, (S.collect s).2) := by
  induction s using S.inductionOn with
  | hnone s t h =>
    rw [S.count_none s t h, S.toList_none s t h, S.collect_none s t h]
    rfl
  | hsome s x t h ih =>
    rw [S.count_some s t x h, S.toList_some s t x h, S.collect_some s t x h, ih]
    rfl

theorem Streamable.reduceLoop_foldl {T : Type} (S : Streamable T) (f : T → T → T)
    (s : S.σ) : ∀ acc, S.reduceLoop f acc s = ((S.toList s).foldl f acc, (S.collect s).2) := by
  induction s using S.inductionOn with
  | hnone s t h =>
    intro acc
    rw [S.reduceLoop_none f acc s t h, S.toList_none s t h, S.collect_none s t h]
    rfl
  | hsome s x t h ih =>
    intro acc
    rw [S.reduceLoop_some f acc x s t h, S.toList_some s t x h, S.collect_some s t x h,
      ih (f acc x)]
    rfl

theorem Streamable.reduce_spec {T : Type} (S : Streamable T) (f : T → T → T) (s : S.σ) :
    S.reduce f s = ((match S.toList s with
      | [] => none
      | x :: xs => some (xs.foldl f x)), (S.collect s).2) := by
  cases h : S.next s with
  | mk e t =>
    cases e with
    | none =>
      rw [Streamable.reduce, h, S.toList_none s t h, S.collect_none s t h]
    | some x =>
      rw [Streamable.reduce, h, S.toList_some s t x h, S.collect_some s t x h]
      dsimp only
      rw [S.reduceLoop_foldl f t x]

theorem Streamable.findLastLoop_spec {T : Type} (S : Streamable T) (s : S.σ) :
    ∀ acc, S.findLastLoop acc s = ((S.toList s).foldl (fun _ b => b) acc, (S.collect s).2) := by
  induction s using S.inductionOn with
  | hnone s t h =>
    intro acc
    rw [S.findLastLoop_none acc s t h, S.toList_none s t h, S.collect_none s t h]
    rfl
  | hsome s x t h ih =>
    intro acc
    rw [S.findLastLoop_some acc x s t h, S.toList_some s t x h, S.collect_some s t x h,
      ih x]
    rfl

theorem Streamable.find_last_spec {T : Type} (S : Streamable T) (s : S.σ) :
    S.find_last s = ((match S.toList s with
      | [] => none
      | x :: xs => some (xs.foldl (fun _ b => b) x)), (S.collect s).2) := by
  cases h : S.next s with
  | mk e t =>
    cases e with
    | none =>
      rw [Streamable.find_last, h, S.toList_none s t h, S.collect_none s t h]
    | some x =>
      rw [Streamable.find_last, h, S.toList_some s t x h, S.collect_some s t x h]
      dsimp only
      rw [S.findLastLoop_spec t x]

theorem Streamable.minLoop_eq_reduceLoop {T : Type} (S : Streamable T)
    (lt : T → T → Bool) (s : S.σ) :
    ∀ acc, S.minLoop lt acc s = S.reduceLoop (fun a b => if lt b a then b else a) acc s := by
  induction s using S.inductionOn with
  | hnone s t h =>
    intro acc
    rw [S.minLoop_none lt acc s t h,
      S.reduceLoop_none (fun a b => if lt b a then b else a) acc s t h]
  | hsome s x t h ih =>
    intro acc
    rw [S.minLoop_some lt acc x s t h,
      S.reduceLoop_some (fun a b => if lt b a then b else a) acc x s t h, ih]

theorem Streamable.maxLoop_eq_reduceLoop {T : Type} (S : Streamable T)
    (lt : T → T → Bool) (s : S.σ) :
    ∀ acc, S.maxLoop lt acc s = S.reduceLoop (fun a b => if lt a b then b else a) acc s := by
  induction s using S.inductionOn with
  | hnone s t h =>
    intro acc
    rw [S.maxLoop_none lt acc s t h,
      S.reduceLoop_none (fun a b => if lt a b then b else a) acc s t h]
  | hsome s x t h ih =>
    intro acc
    rw [S.maxLoop_some lt acc x s t h,
      S.reduceLoop_some (fun a b => if lt a b then b else a) acc x s t h, ih]

theorem Streamable.min_eq_reduce {T : Type} (S : Streamable T) (lt : T → T → Bool)
    (s : S.σ) : S.min lt s = S.reduce (fun a b => if lt b a then b else a) s := by
  cases h : S.next s with
  | mk e t =>
    cases e with
    | none => rw [Streamable.min, Streamable.reduce, h]
    | some x =>
      rw [Streamable.min, Streamable.reduce, h]
      dsimp only
      rw [S.minLoop_eq_reduceLoop lt t x]

theorem Streamable.max_eq_reduce {T : Type} (S : Streamable T) (lt : T → T → Bool)
    (s : S.σ) : S.max lt s = S.reduce (fun a b => if lt a b then b else a) s := by
  cases h : S.next s with
  | mk e t =>
    cases e with
    | none => rw [Streamable.max, Streamable.reduce, h]
    | some x =>
      rw [Streamable.max, Streamable.reduce, h]
      dsimp only
      rw [S.maxLoop_eq_reduceLoop lt t x]

theorem Streamable.count_exhausted {T : Type} (S : Streamable T) (t : S.σ)
    (h : S.Exhausted t) : S.count t = (0, t) :=
  S.count_none t t (S.exhausted_next t h)

theorem Streamable.reduce_exhausted {T : Type} (S : Streamable T) (f : T → T → T)
    (t : S.σ) (h : S.Exhausted t) : S.reduce f t = (none, t) := by
  rw [Streamable.reduce, S.exhausted_next t h]

theorem Streamable.find_last_exhausted {T : Type} (S : Streamable T) (t : S.σ)
    (h : S.Exhausted t) : S.find_last t = (none, t) := by
  rw [Streamable.find_last, S.exhausted_next t h]

/-- C3: `reduce(f)` returns the absent indicator on an empty stream; on a
non-empty stream it returns the left fold of `f` seeded with the first element
over the remaining elements in pull order (no separate initial value), so on
the stream `[1, 2, 3]` with addition it returns `some 6`. -/
theorem reduce_left_fold_seeded_by_first {T : Type} (S : Streamable T)
    (f : T → T → T) (s : S.σ) :
    (S.reduce f s).1 = (match S.toList s with
      | [] => none
      | x :: xs => some (xs.foldl f x)) ∧
    ((listStream Nat).reduce (fun a b => a + b) [1, 2, 3]).1 = some 6 := by
  constructor
  · rw [S.reduce_spec f s]
  · rw [(listStream Nat).reduce_spec (fun a b => a + b) [1, 2, 3], listStream_toList]
    rfl

/-- C4: on a pipeline already fully drained by one terminal operation (`count`,
`reduce`, `find_last` or `collect`), a second terminal operation yields the
empty/absent result — `count` returns 0, `reduce` and `find_last` return the
absent indicator — rather than an error. -/
theorem second_terminal_on_drained_is_empty {T : Type} (S : Streamable T)
    (f g : T → T → T) (s : S.σ) :
    ((S.count (S.count s).2).1 = 0 ∧ (S.reduce g (S.count s).2).1 = none ∧
      (S.find_last (S.count s).2).1 = none) ∧
    ((S.count (S.reduce f s).2).1 = 0 ∧ (S.reduce g (S.reduce f s).2).1 = none ∧
      (S.find_last (S.reduce f s).2).1 = none) ∧
    ((S.count (S.find_last s).2).1 = 0 ∧ (S.reduce g (S.find_last s).2).1 = none ∧
      (S.find_last (S.find_last s).2).1 = none) ∧
    ((S.count (S.collect s).2).1 = 0 ∧ (S.reduce g (S.collect s).2).1 = none ∧
      (S.find_last (S.collect s).2).1 = none) := by
  have hex : S.Exhausted (S.collect s).2 := S.collect_snd_exhausted s
  have h1 : (S.count s).2 = (S.collect s).2 := by rw [S.count_spec s]
  have h2 : (S.reduce f s).2 = (S.collect s).2 := by rw [S.reduce_spec f s]
  have h3 : (S.find_last s).2 = (S.collect s).2 := by rw [S.find_last_spec s]
  have hc : (S.count (S.collect s).2).1 = 0 := by rw [S.count_exhausted _ hex]
  have hr : (S.reduce g (S.collect s).2).1 = none := by rw [S.reduce_exhausted g _ hex]
  have hf : (S.find_last (S.collect s).2).1 = none := by rw [S.find_last_exhausted _ hex]
  rw [h1, h2, h3]
  exact ⟨⟨hc, hr, hf⟩, ⟨hc, hr, hf⟩, ⟨hc, hr, hf⟩, ⟨hc, hr, hf⟩⟩

theorem chaining_next_left {T : Type} (A B : Streamable T) (a : A.σ) (b : B.σ)
    (x : T) (a2 : A.σ) (h : A.next a = (some x, a2)) :
    (chainingStreamable A B).next (a, b) = (some x, (a2, b)) := by
  show (match A.next a with
    | (some x, a2) => (some x, (a2, b))
    | (none, a2) =>
      match B.next b with
      | (some y, b2) => (some y, (a2, b2))
      | (none, b2) => (none, (a2, b2))) = (some x, (a2, b))
  rw [h]

theorem chaining_next_right {T : Type} (A B : Streamable T) (a : A.σ) (b : B.σ)
    (ha : A.Exhausted a) (y : T) (b2 : B.σ) (h : B.next b = (some y, b2)) :
    (chainingStreamable A B).next (a, b) = (some y, (a, b2)) := by
  show (match A.next a with
    | (some x, a2) => (some x, (a2, b))
    | (none, a2) =>
      match B.next b with
      | (some y, b2) => (some y, (a2, b2))
      | (none, b2) => (none, (a2, b2))) = (some y, (a, b2))
  rw [A.exhausted_next a ha, h]

theorem chaining_next_none {T : Type} (A B : Streamable T) (a : A.σ) (b : B.σ)
    (ha : A.Exhausted a) (hb : B.Exhausted b) :
    (chainingStreamable A B).next (a, b) = (none, (a, b)) := by
  show (match A.next a with
    | (some x, a2) => (some x, (a2, b))
    | (none, a2) =>
      match B.next b with
      | (some y, b2) => (some y, (a2, b2))
      | (none, b2) => (none, (a2, b2))) = (none, (a, b))
  rw [A.exhausted_next a ha, B.exhausted_next b hb]

theorem chaining_toList_exhausted_left {T : Type} (A B : Streamable T) (a : A.σ)
    (ha : A.Exhausted a) (b : B.σ) :
    (chainingStreamable A B).toList (a, b) = B.toList b := by
  induction b using B.inductionOn with
  | hnone c t h =>
    have hc : B.Exhausted c := by rw [Streamable.Exhausted, h]
    rw [(chainingStreamable A B).toList_none (a, c) (a, c)
      (chaining_next_none A B a c ha hc), B.toList_none c t h]
  | hsome c y t h ih =>
    rw [(chainingStreamable A B).toList_some (a, c) (a, t) y
      (chaining_next_right A B a c ha y t h), B.toList_some c t y h, ih]

theorem chaining_toList {T : Type} (A B : Streamable T) (a : A.σ) :
    ∀ b : B.σ, (chainingStreamable A B).toList (a, b) = A.toList a ++ B.toList b := by
  induction a using A.inductionOn with
  | hnone a t h =>
    intro b
    have ha : A.Exhausted a := by rw [Streamable.Exhausted, h]
    rw [chaining_toList_exhausted_left A B a ha b, A.toList_none a t h]
    rfl
  | hsome a x t h ih =>
    intro b
    rw [(chainingStreamable A B).toList_some (a, b) (t, b) x
      (chaining_next_left A B a b x t h), A.toList_some a t x h, ih b]
    rfl

/-- C5: `A.chain(B)` yields all of `A`'s elements in pull order followed by
all of `B`'s; `A.pre_chain(B)` prepends `B`, yielding all of `B`'s elements
followed by all of `A`'s; and in both forms the first component is exhausted
entirely before the second is pulled — while the first component still yields
an element, a pull takes that element and leaves the second component's state
untouched, and the second component is pulled only once the first reports
exhaustion. -/
theorem chain_appends_pre_chain_prepends {T : Type} (A B : Streamable T)
    (a : A.σ) (b : B.σ) :
    (A.chain B).toList (a, b) = A.toList a ++ B.toList b ∧
    (A.pre_chain B).toList (b, a) = B.toList b ++ A.toList a ∧
    (∀ x a2, A.next a = (some x, a2) →
      (A.chain B).next (a, b) = (some x, (a2, b))) ∧
    (A.Exhausted a → ∀ y b2, B.next b = (some y, b2) →
      (A.chain B).next (a, b) = (some y, (a, b2))) := by
  refine ⟨chaining_toList A B a b, chaining_toList B A b a, ?_, ?_⟩
  · intro x a2 h
    exact chaining_next_left A B a b x a2 h
  · intro ha y b2 h
    exact chaining_next_right A B a b ha y b2 h

theorem chain_appends_pre_chain_prepends_witness :
    ((listStream Nat).chain (listStream Nat)).next ([1, 2], [3, 4]) =
      (some 1, ([2], [3, 4])) ∧
    ((listStream Nat).chain (listStream Nat)).next ([], [3, 4]) =
      (some 3, ([], [4])) ∧
    ((listStream Nat).chain (listStream Nat)).toList ([1, 2], [3, 4]) =
      (listStream Nat).toList [1, 2] ++ (listStream Nat).toList [3, 4] :=
  ⟨(chain_appends_pre_chain_prepends (listStream Nat) (listStream Nat)
      [1, 2] [3, 4]).2.2.1 1 [2] rfl,
    (chain_appends_pre_chain_prepends (listStream Nat) (listStream Nat)
      [] [3, 4]).2.2.2 rfl 3 [4] rfl,
    (chain_appends_pre_chain_prepends (listStream Nat) (listStream Nat)
      [1, 2] [3, 4]).1⟩

theorem foldl_min_least {U : Type} [LinearOrder U] (xs : List U) : ∀ x : U,
    (xs.foldl (fun a b => if decide (b < a) then b else a) x) ∈ x :: xs ∧
    ∀ y ∈ x :: xs, (xs.foldl (fun a b => if decide (b < a) then b else a) x) ≤ y := by
  induction xs with
  | nil =>
    intro x
    constructor
    · simp
    · intro y hy
      rw [List.mem_singleton] at hy
      rw [hy]
      exact le_refl x
  | cons z zs ih =>
    intro x
    have hfold : (z :: zs).foldl (fun a b => if decide (b < a) then b else a) x =
        zs.foldl (fun a b => if decide (b < a) then b else a)
          (if decide (z < x) then z else x) := rfl
    have hwx : (if decide (z < x) then z else x) ≤ x := by
      by_cases hzx : z < x
      · rw [if_pos (decide_eq_true hzx)]
        exact le_of_lt hzx
      · rw [if_neg (by simp [hzx])]
    have hwz : (if decide (z < x) then z else x) ≤ z := by
      by_cases hzx : z < x
      · rw [if_pos (decide_eq_true hzx)]
      · rw [if_neg (by simp [hzx])]
        exact le_of_not_lt hzx
    have hwmem : (if decide (z < x) then z else x) = z ∨
        (if decide (z < x) then z else x) = x := by
      by_cases hzx : z < x
      · left
        rw [if_pos (decide_eq_true hzx)]
      · right
        rw [if_neg (by simp [hzx])]
    obtain ⟨ihm, ihb⟩ := ih (if decide (z < x) then z else x)
    constructor
    · rw [hfold]
      rcases List.mem_cons.mp ihm with hm | hm
      · rcases hwmem with hw | hw
        · rw [hm, hw]
          simp
        · rw [hm, hw]
          simp
      · exact List.mem_cons_of_mem _ (List.mem_cons_of_mem _ hm)
    · intro y hy
      rw [hfold]
      rcases List.mem_cons.mp hy with hyx | hy2
      · rw [hyx]
        exact le_trans (ihb _ (List.mem_cons_self _ _)) hwx
      · rcases List.mem_cons.mp hy2 with hyz | hy3
        · rw [hyz]
          exact le_trans (ihb _ (List.mem_cons_self _ _)) hwz
        · exact ihb y (List.mem_cons_of_mem _ hy3)

theorem foldl_max_greatest {U : Type} [LinearOrder U] (xs : List U) : ∀ x : U,
    (xs.foldl (fun a b => if decide (a < b) then b else a) x) ∈ x :: xs ∧
    ∀ y ∈ x :: xs, y ≤ (xs.foldl (fun a b => if decide (a < b) then b else a) x) := by
  induction xs with
  | nil =>
    intro x
    constructor
    · simp
    · intro y hy
      rw [List.mem_singleton] at hy
      rw [hy]
      exact le_refl x
  | cons z zs ih =>
    intro x
    have hfold : (z :: zs).foldl (fun a b => if decide (a < b) then b else a) x =
        zs.foldl (fun a b => if decide (a < b) then b else a)
          (if decide (x < z) then z else x) := rfl
    have hwx : x ≤ (if decide (x < z) then z else x) := by
      by_cases hxz : x < z
      · rw [if_pos (decide_eq_true hxz)]
        exact le_of_lt hxz
      · rw [if_neg (by simp [hxz])]
    have hwz : z ≤ (if decide (x < z) then z else x) := by
      by_cases hxz : x < z
      · rw [if_pos (decide_eq_true hxz)]
      · rw [if_neg (by simp [hxz])]
        exact le_of_not_lt hxz
    have hwmem : (if decide (x < z) then z else x) = z ∨
        (if decide (x < z) then z else x) = x := by
      by_cases hxz : x < z
      · left
        rw [if_pos (decide_eq_true hxz)]
      · right
        rw [if_neg (by simp [hxz])]
    obtain ⟨ihm, ihb⟩ := ih (if decide (x < z) then z else x)
    constructor
    · rw [hfold]
      rcases List.mem_cons.mp ihm with hm | hm
      · rcases hwmem with hw | hw
        · rw [hm, hw]
          simp
        · rw [hm, hw]
          simp
      · exact List.mem_cons_of_mem _ (List.mem_cons_of_mem _ hm)
    · intro y hy
      rw [hfold]
      rcases List.mem_cons.mp hy with hyx | hy2
      · rw [hyx]
        exact le_trans hwx (ihb _ (List.mem_cons_self _ _))
      · rcases List.mem_cons.mp hy2 with hyz | hy3
        · rw [hyz]
          exact le_trans hwz (ihb _ (List.mem_cons_self _ _))
        · exact ihb y (List.mem_cons_of_mem _ hy3)

theorem foldl_add_sum (xs : List Nat) : ∀ x : Nat,
    xs.foldl (fun a b => a + b) x = x + xs.sum := by
  induction xs with
  | nil =>
    intro x
    simp
  | cons z zs ih =>
    intro x
    have hfold : (z :: zs).foldl (fun a b => a + b) x =
        zs.foldl (fun a b => a + b) (x + z) := rfl
    rw [hfold, ih (x + z), List.sum_cons]
    omega

/-- C6: `sum`, `min` and `max` are the `reduce` of the corresponding binary
operation — addition for `sum`, the function returning the lesser of its two
arguments under `operator<` for `min`, the greater for `max` — hence absent on
an empty (exhausted) stream; and on a non-empty stream they return the sum,
a least element and a greatest element respectively (shown for list-backed
streams over a linear order, with `operator<` modelled by `decide (a < b)`). -/
theorem sum_min_max_are_reduce {T : Type} [Add T] (S : Streamable T)
    (lt : T → T → Bool) (s : S.σ) :
    S.sum s = S.reduce (fun a b => a + b) s ∧
    S.min lt s = S.reduce (fun a b => if lt b a then b else a) s ∧
    S.max lt s = S.reduce (fun a b => if lt a b then b else a) s ∧
    (S.Exhausted s →
      (S.sum s).1 = none ∧ (S.min lt s).1 = none ∧ (S.max lt s).1 = none) ∧
    (∀ (U : Type) [LinearOrder U] (x : U) (xs : List U),
      (∃ m, ((listStream U).min (fun a b => decide (a < b)) (x :: xs)).1 = some m ∧
        m ∈ x :: xs ∧ ∀ y ∈ x :: xs, m ≤ y) ∧
      (∃ m, ((listStream U).max (fun a b => decide (a < b)) (x :: xs)).1 = some m ∧
        m ∈ x :: xs ∧ ∀ y ∈ x :: xs, y ≤ m)) ∧
    (∀ (x : Nat) (xs : List Nat),
      ((listStream Nat).sum (x :: xs)).1 = some (x :: xs).sum) := by
  refine ⟨rfl, S.min_eq_reduce lt s, S.max_eq_reduce lt s, ?_, ?_, ?_⟩
  · intro h
    refine ⟨?_, ?_, ?_⟩
    · rw [Streamable.sum, S.reduce_exhausted _ s h]
    · rw [S.min_eq_reduce lt s, S.reduce_exhausted _ s h]
    · rw [S.max_eq_reduce lt s, S.reduce_exhausted _ s h]
  · intro U instU x xs
    constructor
    · refine ⟨xs.foldl (fun a b => if decide (b < a) then b else a) x, ?_,
        (foldl_min_least xs x).1, (foldl_min_least xs x).2⟩
      rw [(listStream U).min_eq_reduce (fun a b => decide (a < b)) (x :: xs),
        (listStream U).reduce_spec (fun a b => if decide (b < a) then b else a) (x :: xs),
        listStream_toList]
    · refine ⟨xs.foldl (fun a b => if decide (a < b) then b else a) x, ?_,
        (foldl_max_greatest xs x).1, (foldl_max_greatest xs x).2⟩
      rw [(listStream U).max_eq_reduce (fun a b => decide (a < b)) (x :: xs),
        (listStream U).reduce_spec (fun a b => if decide (a < b) then b else a) (x :: xs),
        listStream_toList]
  · intro x xs
    rw [Streamable.sum, (listStream Nat).reduce_spec (fun a b => a + b) (x :: xs),
      listStream_toList]
    show some (xs.foldl (fun a b => a + b) x) = some (x :: xs).sum
    rw [foldl_add_sum xs x, List.sum_cons]

theorem sum_min_max_are_reduce_witness :
    ((listStream Nat).sum []).1 = none ∧
    ((listStream Nat).min (fun a b => decide (a < b)) []).1 = none ∧
    ((listStream Nat).max (fun a b => decide (a < b)) []).1 = none :=
  (sum_min_max_are_reduce (listStream Nat) (fun a b => decide (a < b)) []).2.2.2.1 rfl

theorem Streamable.collectSeqLoop_none {T : Type} (S : Streamable T) (cap : Nat)
    (s : S.σ) (idx : Nat) : S.collectSeqLoop cap (none, s) idx = ([], s) := by
  unfold Streamable.collectSeqLoop
  rfl

theorem Streamable.collectSeqLoop_some_lt {T : Type} (S : Streamable T) (cap : Nat)
    (x : T) (s : S.σ) (idx : Nat) (h : idx < cap) :
    S.collectSeqLoop cap (some x, s) idx =
      ((idx, x) :: (S.collectSeqLoop cap (S.next s) (idx + 1)).1,
        (S.collectSeqLoop cap (S.next s) (idx + 1)).2) := by
  conv_lhs => unfold Streamable.collectSeqLoop
  rw [dif_pos h]

theorem Streamable.collectSeqLoop_some_ge {T : Type} (S : Streamable T) (cap : Nat)
    (x : T) (s : S.σ) (idx : Nat) (h : ¬ idx < cap) :
    S.collectSeqLoop cap (some x, s) idx = ([], s) := by
  unfold Streamable.collectSeqLoop
  rw [dif_neg h]

theorem Streamable.collectMemLoop_none {T : Type} (S : Streamable T) (cap : Nat)
    (s : S.σ) (idx : Nat) : S.collectMemLoop cap (none, s) idx = ([], s) := by
  unfold Streamable.collectMemLoop
  rfl

theorem Streamable.collectMemLoop_some_lt {T : Type} (S : Streamable T) (cap : Nat)
    (x : T) (s : S.σ) (idx : Nat) (h : idx < cap) :
    S.collectMemLoop cap (some x, s) idx =
      ((idx, x) :: (S.collectMemLoop cap (S.next s) (idx + 1)).1,
        (S.collectMemLoop cap (S.next s) (idx + 1)).2) := by
  conv_lhs => unfold Streamable.collectMemLoop
  rw [dif_pos h]

theorem Streamable.collectMemLoop_some_ge {T : Type} (S : Streamable T) (cap : Nat)
    (x : T) (s : S.σ) (idx : Nat) (h : ¬ idx < cap) :
    S.collectMemLoop cap (some x, s) idx = ([], s) := by
  unfold Streamable.collectMemLoop
  rw [dif_neg h]

/-- The two capacity-bounded collection loops are the same function: the only
difference in the C++ is the write target. -/
theorem Streamable.collectMemLoop_eq_seqLoop {T : Type} (S : Streamable T) (cap : Nat) :
    ∀ (n : Nat) (p : Option T × S.σ) (idx : Nat), cap - idx ≤ n →
      S.collectMemLoop cap p idx = S.collectSeqLoop cap p idx := by
  intro n
  induction n with
  | zero =>
    intro p idx hn
    cases p with
    | mk e s =>
      cases e with
      | none => rw [S.collectMemLoop_none, S.collectSeqLoop_none]
      | some x =>
        have hge : ¬ idx < cap := by omega
        rw [S.collectMemLoop_some_ge cap x s idx hge, S.collectSeqLoop_some_ge cap x s idx hge]
  | succ n ihn =>
    intro p idx hn
    cases p with
    | mk e s =>
      cases e with
      | none => rw [S.collectMemLoop_none, S.collectSeqLoop_none]
      | some x =>
        by_cases hlt : idx < cap
        · rw [S.collectMemLoop_some_lt cap x s idx hlt, S.collectSeqLoop_some_lt cap x s idx hlt,
            ihn (S.next s) (idx + 1) (by omega)]
        · rw [S.collectMemLoop_some_ge cap x s idx hlt, S.collectSeqLoop_some_ge cap x s idx hlt]

theorem Streamable.collect_to_memory_eq_sequence {T : Type} (S : Streamable T)
    (s : S.σ) (cap : Nat) : S.collect_to_memory s cap = S.collect_sequence cap s := by
  rw [Streamable.collect_to_memory, Streamable.collect_sequence,
    S.collectMemLoop_eq_seqLoop cap cap (S.next s) 0 (by omega)]

theorem Streamable.collectSeqLoop_writes {T : Type} (S : Streamable T) (cap : Nat) :
    ∀ (n : Nat) (p : Option T × S.σ) (idx : Nat), cap - idx ≤ n →
      (S.collectSeqLoop cap p idx).1 =
        List.enumFrom idx ((S.pulled p).take (cap - idx)) := by
  intro n
  induction n with
  | zero =>
    intro p idx hn
    have h0 : cap - idx = 0 := Nat.le_zero.mp hn
    cases p with
    | mk e s =>
      cases e with
      | none =>
        rw [S.collectSeqLoop_none, h0]
        rfl
      | some x =>
        rw [S.collectSeqLoop_some_ge cap x s idx (by omega), h0]
        rfl
  | succ n ihn =>
    intro p idx hn
    cases p with
    | mk e s =>
      cases e with
      | none =>
        rw [S.collectSeqLoop_none]
        simp [Streamable.pulled]
      | some x =>
        by_cases hlt : idx < cap
        · rw [S.collectSeqLoop_some_lt cap x s idx hlt]
          dsimp only
          rw [ihn (S.next s) (idx + 1) (by omega), S.pulled_next]
          have hci : cap - idx = (cap - (idx + 1)) + 1 := by omega
          rw [hci]
          rfl
        · rw [S.collectSeqLoop_some_ge cap x s idx hlt]
          have hci : cap - idx = 0 := by omega
          rw [hci]
          rfl

theorem Streamable.collectSeqLoop_final {T : Type} (S : Streamable T) (cap : Nat) :
    ∀ (n : Nat) (s0 : S.σ) (idx : Nat), cap - idx ≤ n →
      S.toList ((S.collectSeqLoop cap (S.next s0) idx).2) =
        (S.toList s0).drop (cap - idx + 1) := by
  intro n
  induction n with
  | zero =>
    intro s0 idx hn
    have h0 : cap - idx = 0 := Nat.le_zero.mp hn
    cases h : S.next s0 with
    | mk e s =>
      cases e with
      | none =>
        have hs : s = s0 := S.none_frame s0 s h
        rw [S.collectSeqLoop_none]
        dsimp only
        rw [hs, S.toList_none s0 s h]
        simp
      | some x =>
        rw [S.collectSeqLoop_some_ge cap x s idx (by omega)]
        dsimp only
        rw [S.toList_some s0 s x h, h0]
        rfl
  | succ n ihn =>
    intro s0 idx hn
    cases h : S.next s0 with
    | mk e s =>
      cases e with
      | none =>
        have hs : s = s0 := S.none_frame s0 s h
        rw [S.collectSeqLoop_none]
        dsimp only
        rw [hs, S.toList_none s0 s h]
        simp
      | some x =>
        by_cases hlt : idx < cap
        · rw [S.collectSeqLoop_some_lt cap x s idx hlt]
          dsimp only
          rw [S.toList_some s0 s x h]
          have hci : cap - idx + 1 = ((cap - (idx + 1)) + 1) + 1 := by omega
          rw [hci, List.drop_succ_cons]
          exact ihn s (idx + 1) (by omega)
        · rw [S.collectSeqLoop_some_ge cap x s idx hlt]
          dsimp only
          have hci : cap - idx = 0 := by omega
          rw [S.toList_some s0 s x h, hci]
          rfl

theorem mem_enumFrom_fst_lt {U : Type} (l : List U) :
    ∀ (idx : Nat) (p : Nat × U), p ∈ List.enumFrom idx l → p.1 < idx + l.length := by
  induction l with
  | nil =>
    intro idx p hp
    simp [List.enumFrom] at hp
  | cons z zs ih =>
    intro idx p hp
    have hp2 : p = (idx, z) ∨ p ∈ List.enumFrom (idx + 1) zs := List.mem_cons.mp hp
    rcases hp2 with h1 | h2
    · rw [h1]
      simp
    · have := ih (idx + 1) p h2
      simp only [List.length_cons]
      omega

theorem Streamable.skip_zero {T : Type} (S : Streamable T) (s : S.σ) :
    S.skip s 0 = s := rfl

theorem Streamable.skip_succ_none {T : Type} (S : Streamable T) (s t : S.σ) (n : Nat)
    (h : S.next s = (none, t)) : S.skip s (n + 1) = t := by
  show (match S.next s with
    | (none, t) => t
    | (some _, t) => S.skip t n) = t
  rw [h]

theorem Streamable.skip_succ_some {T : Type} (S : Streamable T) (s t : S.σ) (x : T)
    (n : Nat) (h : S.next s = (some x, t)) : S.skip s (n + 1) = S.skip t n := by
  show (match S.next s with
    | (none, t) => t
    | (some _, t) => S.skip t n) = S.skip t n
  rw [h]

/-- C7: the capacity-bounded collects (`collect_sequence` with bound `EXTENT`,
here `cap`, which the C++ signature requires positive, and `collect_to_memory`
with bound `max_count`) write exactly the first `min(L, capacity)` stream
elements, in order, at positions `0 .. min(L, capacity) - 1`, and write
nothing at or beyond the capacity bound; elements past the capacity are
silently discarded, never an error. -/
theorem collect_bounded_writes_first_min_elems {T : Type} (S : Streamable T) (s : S.σ)
    (cap : Nat) :
    (0 < cap →
      ((S.collect_sequence cap s).1 = ((S.toList s).take cap).enum ∧
        (S.collect_sequence cap s).1.length = min (S.toList s).length cap ∧
        ∀ p ∈ (S.collect_sequence cap s).1, p.1 < cap)) ∧
    ((S.collect_to_memory s cap).1 = ((S.toList s).take cap).enum ∧
      (S.collect_to_memory s cap).1.length = min (S.toList s).length cap ∧
      ∀ p ∈ (S.collect_to_memory s cap).1, p.1 < cap) := by
  have hw : (S.collect_sequence cap s).1 = ((S.toList s).take cap).enum := by
    rw [Streamable.collect_sequence,
      S.collectSeqLoop_writes cap cap (S.next s) 0 (by omega), S.pulled_next,
      Nat.sub_zero]
    rfl
  have hlen : (S.collect_sequence cap s).1.length = min (S.toList s).length cap := by
    rw [hw, List.enum_length, List.length_take]
    exact Nat.min_comm _ _
  have hidx : ∀ p ∈ (S.collect_sequence cap s).1, p.1 < cap := by
    intro p hp
    rw [hw] at hp
    have hp2 : p ∈ List.enumFrom 0 ((S.toList s).take cap) := hp
    have h1 := mem_enumFrom_fst_lt ((S.toList s).take cap) 0 p hp2
    have h2 : ((S.toList s).take cap).length ≤ cap := by
      rw [List.length_take]
      exact Nat.min_le_left _ _
    omega
  have hm : S.collect_to_memory s cap = S.collect_sequence cap s :=
    S.collect_to_memory_eq_sequence s cap
  exact ⟨fun _ => ⟨hw, hlen, hidx⟩, by rw [hm]; exact ⟨hw, hlen, hidx⟩⟩

theorem collect_bounded_writes_first_min_elems_witness :
    0 < 2 ∧
    (((listStream Nat).collect_sequence 2 [5, 6, 7]).1 =
        (((listStream Nat).toList [5, 6, 7]).take 2).enum ∧
      ((listStream Nat).collect_sequence 2 [5, 6, 7]).1.length =
        min ((listStream Nat).toList [5, 6, 7]).length 2 ∧
      ∀ p ∈ ((listStream Nat).collect_sequence 2 [5, 6, 7]).1, p.1 < 2) :=
  ⟨by decide, (collect_bounded_writes_first_min_elems (listStream Nat) [5, 6, 7] 2).1 (by decide)⟩

/-- C8: `skip(n)` consumes and discards exactly the first `min(n, L)` elements
— the state it returns holds precisely the elements of the stream after the
first `n` in pull order, stopping early (with no further state change) when
the stream exhausts before `n` elements — and the pipeline itself is returned
so the remaining elements can still be pulled. -/
theorem skip_discards_first_min_elems {T : Type} (S : Streamable T) (s : S.σ) (n : Nat) :
    S.toList (S.skip s n) = (S.toList s).drop n ∧
    (S.toList (S.skip s n)).length = (S.toList s).length - n ∧
    (S.Exhausted s → S.skip s n = s) := by
  have hmain : ∀ (m : Nat) (u : S.σ), S.toList (S.skip u m) = (S.toList u).drop m := by
    intro m
    induction m with
    | zero =>
      intro u
      rw [S.skip_zero, List.drop_zero]
    | succ k ih =>
      intro u
      cases h : S.next u with
      | mk e t =>
        cases e with
        | none =>
          have ht : t = u := S.none_frame u t h
          rw [S.skip_succ_none u t k h, ht, S.toList_none u t h]
          simp
        | some x =>
          rw [S.skip_succ_some u t x k h, ih t, S.toList_some u t x h,
            List.drop_succ_cons]
  refine ⟨hmain n s, ?_, ?_⟩
  · rw [hmain n s, List.length_drop]
  · intro hex
    cases n with
    | zero => exact S.skip_zero s
    | succ k => exact S.skip_succ_none s s k (S.exhausted_next s hex)

theorem skip_discards_first_min_elems_witness :
    (listStream Nat).skip [] 5 = [] :=
  (skip_discards_first_min_elems (listStream Nat) [] 5).2.2 rfl

/-- C10: when the stream holds strictly more elements than the capacity bound,
the capacity-bounded collects consume `capacity + 1` elements from upstream:
the one element pulled after the buffer is full is consumed and discarded, so
the final pipeline state holds the original elements with the first
`capacity + 1` removed, not `capacity`. -/
theorem collect_overfull_consumes_capacity_plus_one {T : Type} (S : Streamable T)
    (s : S.σ) (cap : Nat) (hcap : 0 < cap) (hlen : cap < (S.toList s).length) :
    S.toList (S.collect_sequence cap s).2 = (S.toList s).drop (cap + 1) ∧
    (S.toList (S.collect_sequence cap s).2).length = (S.toList s).length - (cap + 1) ∧
    S.toList (S.collect_to_memory s cap).2 = (S.toList s).drop (cap + 1) ∧
    (S.toList (S.collect_to_memory s cap).2).length = (S.toList s).length - (cap + 1) := by
  have h1 : S.toList (S.collect_sequence cap s).2 = (S.toList s).drop (cap + 1) := by
    rw [Streamable.collect_sequence]
    have hfin := S.collectSeqLoop_final cap cap s 0 (by omega)
    rw [Nat.sub_zero] at hfin
    exact hfin
  have h2 : S.collect_to_memory s cap = S.collect_sequence cap s :=
    S.collect_to_memory_eq_sequence s cap
  exact ⟨h1, by rw [h1, List.length_drop], by rw [h2]; exact h1,
    by rw [h2, h1, List.length_drop]⟩

theorem collect_overfull_consumes_capacity_plus_one_witness :
    (0 < 1 ∧ 1 < ((listStream Nat).toList [4, 5, 6]).length) ∧
    (listStream Nat).toList ((listStream Nat).collect_sequence 1 [4, 5, 6]).2 =
      ((listStream Nat).toList [4, 5, 6]).drop 2 :=
  ⟨⟨by decide, by rw [listStream_toList]; decide⟩,
    (collect_overfull_consumes_capacity_plus_one (listStream Nat) [4, 5, 6] 1
      (by decide) (by rw [listStream_toList]; decide)).1⟩
